import Mathlib

/-!
Verification of the transactional key-value storage core (`src/storage/mod.rs`):
the `Storage` command facade, the worker loop, the `Write` type, and — modelled
from the specification, since the `mvcc` and `txn` modules are declared but not
present in the source tree — the MVCC store and transaction coordinator
(snapshot get, prewrite, commit, rollback).
-/

deriving instance DecidableEq for Except

namespace TikvStorage

/-- A logical key: an opaque byte sequence (from `pub type Key = Vec<u8>`). -/
abbrev Key := List Nat

/-- A value: a byte sequence (from `pub type Value = Vec<u8>`). -/
abbrev Value := List Nat

/-- The `Write` enum from `storage/mod.rs`: one staged operation of a write set. -/
inductive Write where
  | put : Key × Value → Write
  | delete : Key → Write
  | lock : Key → Write
deriving DecidableEq

/-- `Write::key` from `storage/mod.rs`: the key embedded in any of the three
variants. -/
def Write.key : Write → Key
  | .put (k, _) => k
  | .delete k => k
  | .lock k => k

/-- The kind of a staged or committed operation: `Put` with a value, `Delete`,
or a `Lock`-only record with no value change (spec §3). -/
inductive WriteKind where
  | put (v : Value)
  | del
  | lockOnly
deriving DecidableEq

/-- The staged operation carried by a `Write` command entry. -/
def Write.op : Write → WriteKind
  | .put (_, v) => .put v
  | .delete _ => .del
  | .lock _ => .lockOnly

/-- Modelled from the spec (§3): a Write record at `commit_ts`, referencing
`start_ts` and a write kind. -/
structure WriteRecord where
  commit_ts : Nat
  start_ts : Nat
  kind : WriteKind
deriving DecidableEq

/-- Modelled from the spec (§3): a Pending Lock at `start_ts`, provisionally
holding the key and carrying the staged operation persisted by `prewrite_key`. -/
structure PendingLock where
  start_ts : Nat
  op : WriteKind
deriving DecidableEq

/-- Modelled from the spec (§3): the versioned state of one key — its Write
records ordered newest to oldest by `commit_ts`, and at most one Pending Lock. -/
structure KeyState where
  writes : List WriteRecord
  lock : Option PendingLock
deriving DecidableEq

/-- The state of a key never touched: no records, no lock. -/
def KeyState.empty : KeyState := ⟨[], none⟩

/-- Modelled from the spec (§2, §3): the MVCC store, owning the versioned
records of every key, kept as an association list over the ordered substrate. -/
structure MvccStore where
  data : List (Key × KeyState)
deriving DecidableEq

/-- The empty store. -/
def MvccStore.empty : MvccStore := ⟨[]⟩

/-- Look up the versioned state of a key; absent keys read as empty. -/
def MvccStore.keyState (st : MvccStore) (k : Key) : KeyState :=
  match st.data.find? (fun p => p.1 == k) with
  | some p => p.2
  | none => KeyState.empty

/-- Replace the state of one key, removing any previous entry for it. -/
def MvccStore.setKey (st : MvccStore) (k : Key) (ks : KeyState) : MvccStore :=
  ⟨(k, ks) :: st.data.filter (fun p => p.1 != k)⟩

/-- The MVCC error kinds of the spec (§7): `KeyIsLocked` (also the Locked
error a blocked `get` reports), `WriteConflict`, `TxnNotFound`. -/
inductive MvccError where
  | keyIsLocked
  | writeConflict
  | txnNotFound
deriving DecidableEq

/-- Modelled from the spec (§4.1 `get`): scan Write records newest to oldest
and return the first record with `commit_ts ≤ ts` that is a `Put` or a
`Delete`; `Lock`-only records change no value and are passed over. -/
def findVisible : List WriteRecord → Nat → Option WriteRecord
  | [], _ => none
  | r :: rs, ts =>
    if r.commit_ts ≤ ts then
      match r.kind with
      | .lockOnly => findVisible rs ts
      | _ => some r
    else findVisible rs ts

/-- Turn the visible record into the read result: the value of a `Put`,
absence for a `Delete` or when no record is visible. -/
def readVisible (ws : List WriteRecord) (ts : Nat) : Except MvccError (Option Value) :=
  match findVisible ws ts with
  | some r =>
    match r.kind with
    | .put v => .ok (some v)
    | _ => .ok none
  | none => .ok none

/-- Modelled from the spec (§4.1): `get(key, start_ts)` — fails with the
Locked error if a Pending Lock exists with `lock.start_ts ≤ start_ts`,
otherwise resolves the newest Write record with `commit_ts ≤ start_ts`. -/
def MvccStore.mvccGet (st : MvccStore) (k : Key) (ts : Nat) : Except MvccError (Option Value) :=
  let ks := st.keyState k
  match ks.lock with
  | some l => if l.start_ts ≤ ts then .error .keyIsLocked else readVisible ks.writes ts
  | none => readVisible ks.writes ts

/-- True when some Write record for the key has `commit_ts ≥ start_ts`
(spec §4.1: the prewriting transaction's snapshot is stale). -/
def hasConflict (ws : List WriteRecord) (s : Nat) : Bool :=
  ws.any (fun r => s ≤ r.commit_ts)

/-- Modelled from the spec (§4.1): `prewrite_key(key, op, start_ts)` — fails
with `WriteConflict` if any Write record has `commit_ts ≥ start_ts`, with
`KeyIsLocked` if another transaction's Pending Lock is present; on success
places a Pending Lock at `start_ts` carrying the staged operation. -/
def MvccStore.prewriteKey (st : MvccStore) (k : Key) (op : WriteKind) (s : Nat) :
    Except MvccError MvccStore :=
  let ks := st.keyState k
  if hasConflict ks.writes s then .error .writeConflict
  else
    match ks.lock with
    | some l =>
      if l.start_ts = s then .ok (st.setKey k ⟨ks.writes, some ⟨s, op⟩⟩)
      else .error .keyIsLocked
    | none => .ok (st.setKey k ⟨ks.writes, some ⟨s, op⟩⟩)

/-- Modelled from the spec (§4.1): `commit_key(key, start_ts, commit_ts)` —
requires the Pending Lock at exactly `start_ts`; converts it into a Write
record at `commit_ts` carrying the staged operation and removes the lock;
fails with `TxnNotFound` when no matching lock exists. -/
def MvccStore.commitKey (st : MvccStore) (k : Key) (s c : Nat) : Except MvccError MvccStore :=
  let ks := st.keyState k
  match ks.lock with
  | some l =>
    if l.start_ts = s then .ok (st.setKey k ⟨⟨c, s, l.op⟩ :: ks.writes, none⟩)
    else .error .txnNotFound
  | none => .error .txnNotFound

/-- Modelled from the spec (§4.1): `rollback_key(key, start_ts)` — removes the
Pending Lock at `start_ts` without producing a Write record; idempotent when
the lock is absent or held by a different transaction. -/
def MvccStore.rollbackKey (st : MvccStore) (k : Key) (s : Nat) : MvccStore :=
  let ks := st.keyState k
  match ks.lock with
  | some l => if l.start_ts = s then st.setKey k ⟨ks.writes, none⟩ else st
  | none => st

/-- Roll back a list of keys in order (best-effort cleanup of a failed
prewrite attempt, spec §4.2). -/
def rollbackAll (st : MvccStore) (ks : List Key) (s : Nat) : MvccStore :=
  ks.foldl (fun acc k => acc.rollbackKey k s) st

/-- Modelled from the spec (§4.2 Prewrite): process the write set in
iteration order, accumulating the keys locked in this attempt; on the first
failure roll back every key already locked and return that error. -/
def prewriteRun (s : Nat) : MvccStore → List Key → List Write → MvccStore × Option MvccError
  | st, _, [] => (st, none)
  | st, locked, w :: ws =>
    match st.prewriteKey w.key w.op s with
    | .ok st1 => prewriteRun s st1 (w.key :: locked) ws
    | .error e => (rollbackAll st locked s, some e)

/-- Modelled from the spec (§4.2): the coordinator's all-or-nothing
`Prewrite(writes, start_ts)`. -/
def coordPrewrite (st : MvccStore) (writes : List Write) (s : Nat) :
    MvccStore × Option MvccError :=
  prewriteRun s st [] writes

/-- Whether a store entry holds a Pending Lock of the transaction
started at `s`. -/
def entryLockedAt (p : Key × KeyState) (s : Nat) : Bool :=
  match p.2.lock with
  | some l => l.start_ts == s
  | none => false

/-- The key set prewritten under `start_ts = s`: the keys whose entries hold
a Pending Lock at `s` (the coordinator recovers the write set of the
transaction from the store, spec §4.2/§9). -/
def lockedKeys (st : MvccStore) (s : Nat) : List Key :=
  (st.data.filter (fun p => entryLockedAt p s)).map Prod.fst

/-- Replay `commit_key` over a key list, failing fast on the first error;
keys already committed stay committed (spec §4.2 Commit). -/
def commitKeys (s c : Nat) : MvccStore → List Key → MvccStore × Option MvccError
  | st, [] => (st, none)
  | st, k :: ks =>
    match st.commitKey k s c with
    | .ok st1 => commitKeys s c st1 ks
    | .error e => (st, some e)

/-- Modelled from the spec (§4.2): the coordinator's `Commit(start_ts,
commit_ts)` — commit by logical transaction id, replaying `commit_key` for
every key prewritten under `start_ts`. -/
def coordCommit (st : MvccStore) (s c : Nat) : MvccStore × Option MvccError :=
  commitKeys s c st (lockedKeys st s)

/-- Unsigned lexicographic order on byte-sequence keys (spec §3). -/
def keyLe : Key → Key → Bool
  | [], _ => true
  | _ :: _, [] => false
  | a :: as, b :: bs => if a < b then true else if b < a then false else keyLe as bs

/-- Insert a key into a `keyLe`-sorted list. -/
def insertKey (k : Key) : List Key → List Key
  | [] => [k]
  | x :: xs => if keyLe k x then k :: x :: xs else x :: insertKey k xs

/-- Sort a key list ascending under `keyLe`. -/
def sortKeys (ks : List Key) : List Key :=
  ks.foldr insertKey []

/-- Resolve each key of a scan independently: a per-key lock conflict is an
error for that entry only; invisible or deleted keys produce no entry
(spec §4.1 `scan`). -/
def scanResolve (st : MvccStore) (ts : Nat) : List Key → List (Except MvccError (Key × Value))
  | [] => []
  | k :: ks =>
    match st.mvccGet k ts with
    | .ok (some v) => .ok (k, v) :: scanResolve st ts ks
    | .ok none => scanResolve st ts ks
    | .error e => .error e :: scanResolve st ts ks

/-- Modelled from the spec (§4.1): `scan(start_key, limit, start_ts)` — the
keys ≥ `start_key` in ascending order, each resolved under the same
visibility rule as `get`, at most `limit` entries. -/
def MvccStore.mvccScan (st : MvccStore) (k0 : Key) (limit ts : Nat) :
    List (Except MvccError (Key × Value)) :=
  (scanResolve st ts (sortKeys ((st.data.map Prod.fst).filter (fun k => keyLe k0 k)))).take limit

/-- The `Command` enum from `storage/mod.rs`, without the one-shot callbacks
(a callback's invocation is modelled as the command's `CmdResult`). -/
inductive Command where
  | get (key : Key) (start_ts : Nat)
  | scan (start_key : Key) (limit : Nat) (start_ts : Nat)
  | prewrite (writes : List Write) (start_ts : Nat)
  | commit (start_ts : Nat) (commit_ts : Nat)
deriving DecidableEq

/-- The payload a command's completion callback receives. -/
inductive CmdResult where
  | getRes (r : Except MvccError (Option Value))
  | scanRes (r : List (Except MvccError (Key × Value)))
  | unitRes (r : Except MvccError Unit)
deriving DecidableEq

/-- Modelled from the spec (§4.3): the Scheduler executes one command
synchronously against the coordinator / MVCC store and yields the result
handed to the command's callback; errors are wrapped into the result,
never propagated out. -/
def handleCmd (st : MvccStore) : Command → MvccStore × CmdResult
  | .get k ts => (st, .getRes (st.mvccGet k ts))
  | .scan k0 lim ts => (st, .scanRes (st.mvccScan k0 lim ts))
  | .prewrite ws s =>
    match coordPrewrite st ws s with
    | (st1, none) => (st1, .unitRes (.ok ()))
    | (st1, some e) => (st1, .unitRes (.error e))
  | .commit s c =>
    match coordCommit st s c with
    | (st1, none) => (st1, .unitRes (.ok ()))
    | (st1, some e) => (st1, .unitRes (.error e))

/-- Run a command sequence, collecting each command's callback result. -/
def runCmds : MvccStore → List Command → MvccStore × List CmdResult
  | st, [] => (st, [])
  | st, c :: cs =>
    let p := handleCmd st c
    let q := runCmds p.1 cs
    (q.1, p.2 :: q.2)

/-- The `Message` enum from `storage/mod.rs`. -/
inductive Message where
  | command (cmd : Command)
  | close
deriving DecidableEq

/-- One receive on the worker's channel: a message, or a receive error
(the channel's senders are gone). -/
inductive RecvEvent where
  | msg (m : Message)
  | recvErr
deriving DecidableEq

/-- How the worker loop of `Storage::new` left off on a finite event stream. -/
inductive LoopOutcome where
  | running
  | closed
  | recvFailed
deriving DecidableEq

/-- The worker loop of `Storage::new` (`storage/mod.rs` lines 101-113): each
received `Command` is handed to the scheduler and the loop continues; `Close`
breaks the loop; a receive error is propagated by `try!` and ends the thread. -/
def workerLoop (st : MvccStore) (outs : List CmdResult) :
    List RecvEvent → MvccStore × List CmdResult × LoopOutcome
  | [] => (st, outs, .running)
  | .recvErr :: _ => (st, outs, .recvFailed)
  | .msg .close :: _ => (st, outs, .closed)
  | .msg (.command c) :: rest =>
    let p := handleCmd st c
    workerLoop p.1 (outs ++ [p.2]) rest

/-- The storage-level error kinds from the `quick_error!` block of
`storage/mod.rs` that the facade can surface on submission or shutdown. -/
inductive StorageError where
  | send
  | recv
  | mvcc (e : MvccError)
deriving DecidableEq

/-- The sending half of the mpsc channel owned by `Storage`: the queue of
enqueued messages, and whether the receiving worker is gone. -/
structure Chan where
  closed : Bool
  queue : List Message
deriving DecidableEq

/-- `Sender::send`: enqueue a message, failing with the `Send` error kind
exactly when the receiver has been dropped. -/
def chanSend (ch : Chan) (m : Message) : Except StorageError Chan :=
  if ch.closed then .error .send else .ok ⟨ch.closed, ch.queue ++ [m]⟩

/-- `Storage::async_get` (`storage/mod.rs` lines 126-138): build the `Get`
command and enqueue it; the callback is not invoked here. -/
def asyncGet (ch : Chan) (k : Key) (ts : Nat) : Except StorageError Chan :=
  chanSend ch (.command (.get k ts))

/-- `Storage::async_scan`: build the `Scan` command and enqueue it. -/
def asyncScan (ch : Chan) (k0 : Key) (lim ts : Nat) : Except StorageError Chan :=
  chanSend ch (.command (.scan k0 lim ts))

/-- `Storage::async_prewrite`: build the `Prewrite` command and enqueue it. -/
def asyncPrewrite (ch : Chan) (ws : List Write) (s : Nat) : Except StorageError Chan :=
  chanSend ch (.command (.prewrite ws s))

/-- `Storage::async_commit`: build the `Commit` command and enqueue it. -/
def asyncCommit (ch : Chan) (s c : Nat) : Except StorageError Chan :=
  chanSend ch (.command (.commit s c))

/-- The Pending Lock a key currently holds, if any. -/
def lockOf (st : MvccStore) (k : Key) : Option PendingLock :=
  (st.keyState k).lock

/-- Run `prewrite_key` over a write prefix with no cleanup, to name the store
against which the first failing write of an attempt was evaluated. -/
def prewriteSeq (s : Nat) : MvccStore → List Write → Option MvccStore
  | st, [] => some st
  | st, w :: ws =>
    match st.prewriteKey w.key w.op s with
    | .ok st1 => prewriteSeq s st1 ws
    | .error _ => none

/-- The spec's declarative visibility rule (§3 invariant): `r` is the Write
record with the greatest `commit_ts ≤ ts` among the value-bearing records
(`Put` or `Delete`; `Lock`-only records change no value). -/
def IsVisibleMax (ws : List WriteRecord) (ts : Nat) (r : WriteRecord) : Prop :=
  r ∈ ws ∧ r.commit_ts ≤ ts ∧ r.kind ≠ .lockOnly ∧
    ∀ r2 ∈ ws, r2.commit_ts ≤ ts → r2.kind ≠ .lockOnly → r2.commit_ts ≤ r.commit_ts

/-- The spec's ordering invariant (§3): a key's Write records are kept newest
first, strictly descending in `commit_ts`. -/
def SortedDesc (ws : List WriteRecord) : Prop :=
  ws.Pairwise (fun a b => b.commit_ts < a.commit_ts)

theorem keyState_setKey_self (st : MvccStore) (k : Key) (ks : KeyState) :
    (st.setKey k ks).keyState k = ks := by
  simp [MvccStore.setKey, MvccStore.keyState, List.find?]

theorem find?_filter_ne (l : List (Key × KeyState)) (k k2 : Key) (h : k2 ≠ k) :
    (l.filter (fun p => p.1 != k)).find? (fun p => p.1 == k2) =
      l.find? (fun p => p.1 == k2) := by
  induction l with
  | nil => rfl
  | cons q l ih =>
    by_cases hq : q.1 = k
    · have h1 : (q.1 != k) = false := by simp [hq]
      have h2 : (q.1 == k2) = false := by simp [hq]; exact fun hh => h hh.symm
      simp [List.filter, List.find?, h1, h2, ih]
    · have h1 : (q.1 != k) = true := by simp [hq]
      by_cases hq2 : q.1 = k2
      · have h3 : (k2 != k) = true := by simp [h]
        simp [List.filter, List.find?, h1, hq2, h3]
      · have h2 : (q.1 == k2) = false := by simp [hq2]
        simp [List.filter, List.find?, h1, h2, ih]

theorem keyState_setKey_ne (st : MvccStore) (k k2 : Key) (ks : KeyState) (h : k2 ≠ k) :
    (st.setKey k ks).keyState k2 = st.keyState k2 := by
  have hk : (k == k2) = false := by simp; exact fun hh => h hh.symm
  simp [MvccStore.setKey, MvccStore.keyState, List.find?, hk, find?_filter_ne st.data k k2 h]

/-- C10: `Write::key` is total over all three variants — for `Put((k, v))`,
`Delete(k)` and `Lock(k)` it returns the embedded key `k`, and it never
fails. -/
theorem write_key_total : ∀ (k : Key) (v : Value),
    (Write.put (k, v)).key = k ∧ (Write.delete k).key = k ∧ (Write.lock k).key = k :=
  fun _ _ => ⟨rfl, rfl, rfl⟩

/-- C9: each of `async_get`, `async_scan`, `async_prewrite` and `async_commit`
only builds its `Command` and enqueues it — returning `Ok` with the command
appended to the channel queue, never itself invoking the completion callback —
and the enqueue fails, with the `Send` error kind, exactly when the worker has
terminated and the channel is closed. -/
theorem async_submit_enqueues :
    ∀ (ch : Chan) (k : Key) (ts : Nat) (k0 : Key) (lim ts2 : Nat)
      (ws : List Write) (s : Nat) (s2 c2 : Nat),
    (ch.closed = false →
      asyncGet ch k ts = .ok ⟨false, ch.queue ++ [.command (.get k ts)]⟩ ∧
      asyncScan ch k0 lim ts2 = .ok ⟨false, ch.queue ++ [.command (.scan k0 lim ts2)]⟩ ∧
      asyncPrewrite ch ws s = .ok ⟨false, ch.queue ++ [.command (.prewrite ws s)]⟩ ∧
      asyncCommit ch s2 c2 = .ok ⟨false, ch.queue ++ [.command (.commit s2 c2)]⟩) ∧
    (ch.closed = true →
      asyncGet ch k ts = .error .send ∧
      asyncScan ch k0 lim ts2 = .error .send ∧
      asyncPrewrite ch ws s = .error .send ∧
      asyncCommit ch s2 c2 = .error .send) := by
  intro ch k ts k0 lim ts2 ws s s2 c2
  constructor
  · intro h
    simp [asyncGet, asyncScan, asyncPrewrite, asyncCommit, chanSend, h]
  · intro h
    simp [asyncGet, asyncScan, asyncPrewrite, asyncCommit, chanSend, h]

/-- Witness for C9 at a concrete open and a concrete closed channel. -/
theorem async_submit_enqueues_witness :
    (Chan.mk false []).closed = false ∧
    asyncGet ⟨false, []⟩ [120] 100 = .ok ⟨false, [.command (.get [120] 100)]⟩ ∧
    (Chan.mk true []).closed = true ∧
    asyncGet ⟨true, []⟩ [120] 100 = .error .send :=
  ⟨rfl,
   ((async_submit_enqueues ⟨false, []⟩ [120] 100 [] 0 0 [] 0 0 0).1 rfl).1,
   rfl,
   ((async_submit_enqueues ⟨true, []⟩ [120] 100 [] 0 0 [] 0 0 0).2 rfl).1⟩

/-- C1: Scenario A on the initially empty store — `get("x", 100)` is `None`,
`prewrite([Put("x","100")], 100)` and `commit(100, 101)` succeed, afterwards
`get("x", 100)` is still `None` and `get("x", 101)` is `Some("100")`; and on
the resulting store the committed write is visible at exactly the snapshots
`t` with `commit_ts = 101 ≤ t`. -/
theorem scenario_round_trip :
    (runCmds MvccStore.empty
      [Command.get [120] 100,
       Command.prewrite [Write.put ([120], [49, 48, 48])] 100,
       Command.commit 100 101,
       Command.get [120] 100,
       Command.get [120] 101]).2 =
      [CmdResult.getRes (.ok none), CmdResult.unitRes (.ok ()), CmdResult.unitRes (.ok ()),
       CmdResult.getRes (.ok none), CmdResult.getRes (.ok (some [49, 48, 48]))] ∧
    ∀ t : Nat,
      (runCmds MvccStore.empty
        [Command.get [120] 100,
         Command.prewrite [Write.put ([120], [49, 48, 48])] 100,
         Command.commit 100 101,
         Command.get [120] 100,
         Command.get [120] 101]).1.mvccGet [120] t = .ok (some [49, 48, 48]) ↔ 101 ≤ t := by
  refine ⟨by decide, ?_⟩
  intro t
  have hst : (runCmds MvccStore.empty
      [Command.get [120] 100,
       Command.prewrite [Write.put ([120], [49, 48, 48])] 100,
       Command.commit 100 101,
       Command.get [120] 100,
       Command.get [120] 101]).1 =
      ⟨[([120], ⟨[⟨101, 100, .put [49, 48, 48]⟩], none⟩)]⟩ := by decide
  have hks : (MvccStore.mk [([120], ⟨[⟨101, 100, .put [49, 48, 48]⟩], none⟩)]).keyState [120] =
      ⟨[⟨101, 100, .put [49, 48, 48]⟩], none⟩ := by decide
  rw [hst]
  by_cases h : 101 ≤ t
  · simp [MvccStore.mvccGet, hks, readVisible, findVisible, h]
  · simp [MvccStore.mvccGet, hks, readVisible, findVisible, h]

/-- C3: `prewrite_key` fails with `WriteConflict` whenever some Write record
for the key has `commit_ts ≥ start_ts`. -/
theorem prewrite_rejects_conflict :
    ∀ (st : MvccStore) (k : Key) (op : WriteKind) (s : Nat),
    (∃ r ∈ (st.keyState k).writes, s ≤ r.commit_ts) →
    st.prewriteKey k op s = .error .writeConflict := by
  intro st k op s h
  obtain ⟨r, hr, hle⟩ := h
  have hc : hasConflict (st.keyState k).writes s = true := by
    simp [hasConflict, List.any_eq_true]
    exact ⟨r, hr, hle⟩
  simp [MvccStore.prewriteKey, hc]

/-- Witness for C3: after `prewrite([Put("x","100")], 100)` and
`commit(100, 110)`, the record committed at `110 ≥ 105` makes
`prewrite([Put("x","105")], 105)` fail with `WriteConflict`. -/
theorem prewrite_rejects_conflict_witness :
    (∃ r ∈ (((runCmds MvccStore.empty
        [Command.prewrite [Write.put ([120], [49, 48, 48])] 100,
         Command.commit 100 110]).1).keyState [120]).writes, 105 ≤ r.commit_ts) ∧
    ((runCmds MvccStore.empty
        [Command.prewrite [Write.put ([120], [49, 48, 48])] 100,
         Command.commit 100 110]).1).prewriteKey [120] (WriteKind.put [49, 48, 53]) 105 =
      .error .writeConflict :=
  ⟨by decide, prewrite_rejects_conflict _ _ _ _ (by decide)⟩

/-- C4: mutual exclusion per key — while one transaction holds a Pending Lock
(the key state carries at most one lock), a second `prewrite_key` with a
different `start_ts` fails with `KeyIsLocked` or `WriteConflict` and does not
install a second lock. -/
theorem prewrite_mutual_exclusion :
    ∀ (st : MvccStore) (k : Key) (op : WriteKind) (s : Nat) (l : PendingLock),
    lockOf st k = some l → l.start_ts ≠ s →
    ∃ e, st.prewriteKey k op s = .error e ∧
      (e = MvccError.keyIsLocked ∨ e = MvccError.writeConflict) := by
  intro st k op s l hl hne
  unfold lockOf at hl
  by_cases hc : hasConflict (st.keyState k).writes s = true
  · exact ⟨.writeConflict, by simp [MvccStore.prewriteKey, hc], Or.inr rfl⟩
  · refine ⟨.keyIsLocked, ?_, Or.inl rfl⟩
    simp [MvccStore.prewriteKey, hc, hl, hne]

/-- Witness for C4: with `"x"` prewritten at 100 and uncommitted, a second
prewrite of `"x"` at 105 is rejected. -/
theorem prewrite_mutual_exclusion_witness :
    lockOf ((coordPrewrite MvccStore.empty [Write.put ([120], [49, 48, 48])] 100).1) [120] =
      some ⟨100, WriteKind.put [49, 48, 48]⟩ ∧
    (100 : Nat) ≠ 105 ∧
    ∃ e, ((coordPrewrite MvccStore.empty [Write.put ([120], [49, 48, 48])] 100).1).prewriteKey
        [120] (WriteKind.put [49, 48, 53]) 105 = .error e ∧
      (e = MvccError.keyIsLocked ∨ e = MvccError.writeConflict) :=
  ⟨by decide, by decide,
   prewrite_mutual_exclusion _ [120] (WriteKind.put [49, 48, 53]) 105
     ⟨100, WriteKind.put [49, 48, 48]⟩ (by decide) (by decide)⟩

theorem readVisible_ok (ws : List WriteRecord) (ts : Nat) :
    ∃ o, readVisible ws ts = .ok o := by
  unfold readVisible
  cases h : findVisible ws ts with
  | none => exact ⟨none, rfl⟩
  | some r =>
    cases hk : r.kind with
    | put v => exact ⟨some v, by simp [hk]⟩
    | del => exact ⟨none, by simp [hk]⟩
    | lockOnly => exact ⟨none, by simp [hk]⟩

/-- C5: `get(key, start_ts)` fails with the Locked error exactly when a
Pending Lock exists for the key with `lock.start_ts ≤ start_ts`; a lock whose
`start_ts` is greater than the reader's snapshot does not block the read. -/
theorem get_locked_iff :
    ∀ (st : MvccStore) (k : Key) (ts : Nat),
    st.mvccGet k ts = .error .keyIsLocked ↔
      ∃ l, lockOf st k = some l ∧ l.start_ts ≤ ts := by
  intro st k ts
  unfold MvccStore.mvccGet lockOf
  cases hl : (st.keyState k).lock with
  | none =>
    obtain ⟨o, ho⟩ := readVisible_ok (st.keyState k).writes ts
    simp [hl, ho]
  | some l =>
    by_cases h : l.start_ts ≤ ts
    · simp [hl, h]
    · obtain ⟨o, ho⟩ := readVisible_ok (st.keyState k).writes ts
      simp [hl, h, ho]

theorem workerLoop_commands (cmds : List Command) :
    ∀ (st : MvccStore) (outs : List CmdResult) (rest : List RecvEvent),
    workerLoop st outs (cmds.map (fun c => RecvEvent.msg (Message.command c)) ++ rest) =
      workerLoop (runCmds st cmds).1 (outs ++ (runCmds st cmds).2) rest := by
  induction cmds with
  | nil => intro st outs rest; simp [runCmds]
  | cons c cs ih =>
    intro st outs rest
    have h1 : workerLoop st outs
        ((c :: cs).map (fun c => RecvEvent.msg (Message.command c)) ++ rest) =
        workerLoop (handleCmd st c).1 (outs ++ [(handleCmd st c).2])
          (cs.map (fun c => RecvEvent.msg (Message.command c)) ++ rest) := rfl
    have h2 : runCmds st (c :: cs) =
        ((runCmds (handleCmd st c).1 cs).1,
         (handleCmd st c).2 :: (runCmds (handleCmd st c).1 cs).2) := rfl
    rw [h1, ih, h2]
    simp

/-- C8: a command's failure never terminates the worker — a stream of
`Command` messages leaves the loop running with every command executed in
order; appending `Close` (or a receive error) ends the loop, and even then
every previously queued command has executed and produced its result. -/
theorem worker_survives_command_errors :
    ∀ (st : MvccStore) (cmds : List Command),
    workerLoop st [] (cmds.map (fun c => RecvEvent.msg (Message.command c))) =
      ((runCmds st cmds).1, (runCmds st cmds).2, LoopOutcome.running) ∧
    workerLoop st []
        (cmds.map (fun c => RecvEvent.msg (Message.command c)) ++ [RecvEvent.msg Message.close]) =
      ((runCmds st cmds).1, (runCmds st cmds).2, LoopOutcome.closed) ∧
    workerLoop st []
        (cmds.map (fun c => RecvEvent.msg (Message.command c)) ++ [RecvEvent.recvErr]) =
      ((runCmds st cmds).1, (runCmds st cmds).2, LoopOutcome.recvFailed) := by
  intro st cmds
  refine ⟨?_, ?_, ?_⟩
  · have h := workerLoop_commands cmds st [] []
    simpa [workerLoop] using h
  · have h := workerLoop_commands cmds st [] [RecvEvent.msg Message.close]
    simpa [workerLoop] using h
  · have h := workerLoop_commands cmds st [] [RecvEvent.recvErr]
    simpa [workerLoop] using h

theorem findVisible_mem : ∀ (ws : List WriteRecord) (ts : Nat) (r : WriteRecord),
    findVisible ws ts = some r → r ∈ ws ∧ r.commit_ts ≤ ts ∧ r.kind ≠ .lockOnly := by
  intro ws ts
  induction ws with
  | nil => intro r h; simp [findVisible] at h
  | cons a as ih =>
    intro r h
    by_cases hle : a.commit_ts ≤ ts
    · cases hk : a.kind with
      | lockOnly =>
        rw [show findVisible (a :: as) ts = findVisible as ts from by
          simp [findVisible, hle, hk]] at h
        obtain ⟨h1, h2, h3⟩ := ih r h
        exact ⟨List.mem_cons_of_mem _ h1, h2, h3⟩
      | put v =>
        have ha : a = r := by simp [findVisible, hle, hk] at h; exact h
        subst ha
        exact ⟨List.mem_cons_self _ _, hle, by simp [hk]⟩
      | del =>
        have ha : a = r := by simp [findVisible, hle, hk] at h; exact h
        subst ha
        exact ⟨List.mem_cons_self _ _, hle, by simp [hk]⟩
    · rw [show findVisible (a :: as) ts = findVisible as ts from by
        simp [findVisible, hle]] at h
      obtain ⟨h1, h2, h3⟩ := ih r h
      exact ⟨List.mem_cons_of_mem _ h1, h2, h3⟩

theorem findVisible_none : ∀ (ws : List WriteRecord) (ts : Nat),
    findVisible ws ts = none ↔ ∀ r ∈ ws, r.commit_ts ≤ ts → r.kind = .lockOnly := by
  intro ws ts
  induction ws with
  | nil => simp [findVisible]
  | cons a as ih =>
    by_cases hle : a.commit_ts ≤ ts
    · cases hk : a.kind with
      | lockOnly => simp [findVisible, hle, hk, ih, List.forall_mem_cons]
      | put v => simp [findVisible, hle, hk, List.forall_mem_cons]
      | del => simp [findVisible, hle, hk, List.forall_mem_cons]
    · simp [findVisible, hle, ih, List.forall_mem_cons]

theorem sortedDesc_commit_inj : ∀ (ws : List WriteRecord), SortedDesc ws →
    ∀ r1 ∈ ws, ∀ r2 ∈ ws, r1.commit_ts = r2.commit_ts → r1 = r2 := by
  intro ws hs
  induction ws with
  | nil => simp
  | cons a as ih =>
    rw [SortedDesc, List.pairwise_cons] at hs
    intro r1 h1 r2 h2 heq
    rcases List.mem_cons.mp h1 with rfl | h1b
    · rcases List.mem_cons.mp h2 with rfl | h2b
      · rfl
      · exact absurd heq (by have := hs.1 r2 h2b; omega)
    · rcases List.mem_cons.mp h2 with rfl | h2b
      · exact absurd heq (by have := hs.1 r1 h1b; omega)
      · exact ih hs.2 r1 h1b r2 h2b heq

theorem findVisible_isMax : ∀ (ws : List WriteRecord) (ts : Nat) (r : WriteRecord),
    SortedDesc ws → findVisible ws ts = some r → IsVisibleMax ws ts r := by
  intro ws ts
  induction ws with
  | nil => intro r _ h; simp [findVisible] at h
  | cons a as ih =>
    intro r hs h
    rw [SortedDesc, List.pairwise_cons] at hs
    obtain ⟨hlt, hs2⟩ := hs
    by_cases hle : a.commit_ts ≤ ts
    · cases hk : a.kind with
      | lockOnly =>
        rw [show findVisible (a :: as) ts = findVisible as ts from by
          simp [findVisible, hle, hk]] at h
        obtain ⟨m1, m2, m3, m4⟩ := ih r hs2 h
        refine ⟨List.mem_cons_of_mem _ m1, m2, m3, ?_⟩
        intro r2 hr2 hc2 hk2
        rcases List.mem_cons.mp hr2 with rfl | h2
        · exact absurd hk hk2
        · exact m4 r2 h2 hc2 hk2
      | put v =>
        have ha : a = r := by simp [findVisible, hle, hk] at h; exact h
        subst ha
        refine ⟨List.mem_cons_self _ _, hle, by simp [hk], ?_⟩
        intro r2 hr2 _ _
        rcases List.mem_cons.mp hr2 with rfl | h2
        · exact le_refl _
        · exact le_of_lt (hlt r2 h2)
      | del =>
        have ha : a = r := by simp [findVisible, hle, hk] at h; exact h
        subst ha
        refine ⟨List.mem_cons_self _ _, hle, by simp [hk], ?_⟩
        intro r2 hr2 _ _
        rcases List.mem_cons.mp hr2 with rfl | h2
        · exact le_refl _
        · exact le_of_lt (hlt r2 h2)
    · rw [show findVisible (a :: as) ts = findVisible as ts from by
        simp [findVisible, hle]] at h
      obtain ⟨m1, m2, m3, m4⟩ := ih r hs2 h
      refine ⟨List.mem_cons_of_mem _ m1, m2, m3, ?_⟩
      intro r2 hr2 hc2 hk2
      rcases List.mem_cons.mp hr2 with rfl | h2
      · exact absurd hc2 hle
      · exact m4 r2 h2 hc2 hk2

theorem isMax_findVisible (ws : List WriteRecord) (ts : Nat) (r : WriteRecord)
    (hs : SortedDesc ws) (hm : IsVisibleMax ws ts r) : findVisible ws ts = some r := by
  cases hf : findVisible ws ts with
  | none =>
    rw [findVisible_none] at hf
    exact absurd (hf r hm.1 hm.2.1) hm.2.2.1
  | some r2 =>
    obtain ⟨m1, m2, m3, m4⟩ := findVisible_isMax ws ts r2 hs hf
    have h1 : r2.commit_ts ≤ r.commit_ts := hm.2.2.2 r2 m1 m2 m3
    have h2 : r.commit_ts ≤ r2.commit_ts := m4 r hm.1 hm.2.1 hm.2.2.1
    rw [sortedDesc_commit_inj ws hs r2 m1 r hm.1 (Nat.le_antisymm h1 h2)]

/-- C2: the snapshot read rule — under the spec ordering invariant (records
strictly descending in `commit_ts`) and for a read not blocked by a lock,
`get(key, start_ts)` returns exactly the value of the Write record with the
greatest `commit_ts ≤ start_ts` among the value-bearing records when that
record is a `Put`, and absence when that record is a `Delete` or no such
record exists. -/
theorem get_visibility_rule :
    ∀ (st : MvccStore) (k : Key) (ts : Nat),
    SortedDesc (st.keyState k).writes →
    (∀ l, lockOf st k = some l → ts < l.start_ts) →
    (∀ v, st.mvccGet k ts = .ok (some v) ↔
      ∃ r, IsVisibleMax (st.keyState k).writes ts r ∧ r.kind = .put v) ∧
    (st.mvccGet k ts = .ok none ↔
      ((∀ r ∈ (st.keyState k).writes, r.commit_ts ≤ ts → r.kind = .lockOnly) ∨
       ∃ r, IsVisibleMax (st.keyState k).writes ts r ∧ r.kind = .del)) := by
  intro st k ts hs hnb
  have hred : st.mvccGet k ts = readVisible (st.keyState k).writes ts := by
    unfold MvccStore.mvccGet
    cases hl : (st.keyState k).lock with
    | none => simp [hl]
    | some l =>
      have hgt := hnb l (by unfold lockOf; rw [hl])
      simp [hl, Nat.not_le.mpr hgt]
  rw [hred]
  cases hf : findVisible (st.keyState k).writes ts with
  | none =>
    have hnone := (findVisible_none (st.keyState k).writes ts).mp hf
    refine ⟨fun v => ⟨fun h => ?_, fun h => ?_⟩, ⟨fun _ => Or.inl hnone, fun _ => ?_⟩⟩
    · simp [readVisible, hf] at h
    · obtain ⟨r, hm, _⟩ := h
      rw [isMax_findVisible _ _ r hs hm] at hf
      cases hf
    · simp [readVisible, hf]
  | some r =>
    have hmax := findVisible_isMax _ ts r hs hf
    cases hk : r.kind with
    | put v0 =>
      have hread : readVisible (st.keyState k).writes ts = .ok (some v0) := by
        simp [readVisible, hf, hk]
      rw [hread]
      constructor
      · intro v
        constructor
        · intro h
          have hv : v0 = v := by simpa using h
          subst hv
          exact ⟨r, hmax, hk⟩
        · rintro ⟨r2, hm2, hk2⟩
          have := isMax_findVisible _ _ r2 hs hm2
          rw [hf] at this
          have hr : r = r2 := by injection this
          rw [hr, hk2] at hk
          have hv : v = v0 := by injection hk
          rw [hv]
      · constructor
        · intro h; simp at h
        · rintro (hall | ⟨r2, hm2, hk2⟩)
          · rw [(findVisible_none _ _).mpr hall] at hf
            cases hf
          · have := isMax_findVisible _ _ r2 hs hm2
            rw [hf] at this
            have hr : r = r2 := by injection this
            rw [hr, hk2] at hk
            cases hk
    | del =>
      have hread : readVisible (st.keyState k).writes ts = .ok none := by
        simp [readVisible, hf, hk]
      rw [hread]
      constructor
      · intro v
        constructor
        · intro h; simp at h
        · rintro ⟨r2, hm2, hk2⟩
          have := isMax_findVisible _ _ r2 hs hm2
          rw [hf] at this
          have hr : r = r2 := by injection this
          rw [hr, hk2] at hk
          cases hk
      · exact ⟨fun _ => Or.inr ⟨r, hmax, hk⟩, fun _ => rfl⟩
    | lockOnly => exact absurd hk hmax.2.2.1

/-- Witness for C2 at the store holding one record for `"x"` committed at
110, read at snapshot 120. -/
theorem get_visibility_rule_witness :
    SortedDesc (((runCmds MvccStore.empty
      [Command.prewrite [Write.put ([120], [49, 48, 48])] 100,
       Command.commit 100 110]).1).keyState [120]).writes ∧
    ((runCmds MvccStore.empty
      [Command.prewrite [Write.put ([120], [49, 48, 48])] 100,
       Command.commit 100 110]).1.mvccGet [120] 120 = .ok (some [49, 48, 48]) ↔
      ∃ r, IsVisibleMax (((runCmds MvccStore.empty
        [Command.prewrite [Write.put ([120], [49, 48, 48])] 100,
         Command.commit 100 110]).1).keyState [120]).writes 120 r ∧
        r.kind = .put [49, 48, 48]) := by
  constructor
  · simp [SortedDesc]
    decide
  · exact (get_visibility_rule _ [120] 120 (by simp [SortedDesc]; decide)
      (by intro l hl; rw [show lockOf (runCmds MvccStore.empty
        [Command.prewrite [Write.put ([120], [49, 48, 48])] 100,
         Command.commit 100 110]).1 [120] = none from by decide] at hl; cases hl)).1
      [49, 48, 48]

theorem lockOf_setKey_self (st : MvccStore) (k : Key) (ks : KeyState) :
    lockOf (st.setKey k ks) k = ks.lock := by
  simp [lockOf, keyState_setKey_self]

theorem lockOf_setKey_ne (st : MvccStore) (k k2 : Key) (ks : KeyState) (h : k2 ≠ k) :
    lockOf (st.setKey k ks) k2 = lockOf st k2 := by
  simp [lockOf, keyState_setKey_ne st k k2 ks h]

theorem prewriteKey_ok_shape (st : MvccStore) (k : Key) (op : WriteKind) (s : Nat)
    (st2 : MvccStore) (h : st.prewriteKey k op s = .ok st2) :
    st2 = st.setKey k ⟨(st.keyState k).writes, some ⟨s, op⟩⟩ := by
  unfold MvccStore.prewriteKey at h
  by_cases hc : hasConflict (st.keyState k).writes s = true
  · simp [hc] at h
  · rw [if_neg hc] at h
    cases hl : (st.keyState k).lock with
    | some l =>
      simp only [hl] at h
      by_cases hse : l.start_ts = s
      · rw [if_pos hse] at h
        injection h with h2
        exact h2.symm
      · rw [if_neg hse] at h
        cases h
    | none =>
      simp only [hl] at h
      injection h with h2
      exact h2.symm

theorem prewriteKey_ok_self (st : MvccStore) (k : Key) (op : WriteKind) (s : Nat)
    (st2 : MvccStore) (h : st.prewriteKey k op s = .ok st2) :
    lockOf st2 k = some ⟨s, op⟩ := by
  rw [prewriteKey_ok_shape st k op s st2 h, lockOf_setKey_self]

theorem prewriteKey_ok_other (st : MvccStore) (k : Key) (op : WriteKind) (s : Nat)
    (st2 : MvccStore) (h : st.prewriteKey k op s = .ok st2) (k2 : Key) (hne : k2 ≠ k) :
    lockOf st2 k2 = lockOf st k2 := by
  rw [prewriteKey_ok_shape st k op s st2 h, lockOf_setKey_ne st k k2 _ hne]

theorem rollbackKey_lock_self (st : MvccStore) (k : Key) (s : Nat) :
    lockOf (st.rollbackKey k s) k = none ∨ lockOf (st.rollbackKey k s) k = lockOf st k := by
  cases hl : (st.keyState k).lock with
  | none => exact Or.inr (by simp only [MvccStore.rollbackKey, hl])
  | some l =>
    by_cases hse : l.start_ts = s
    · refine Or.inl ?_
      simp only [MvccStore.rollbackKey, hl, if_pos hse]
      rw [lockOf_setKey_self]
    · exact Or.inr (by simp only [MvccStore.rollbackKey, hl, if_neg hse])

theorem rollbackKey_lock_other (st : MvccStore) (k : Key) (s : Nat) (k2 : Key) (hne : k2 ≠ k) :
    lockOf (st.rollbackKey k s) k2 = lockOf st k2 := by
  cases hl : (st.keyState k).lock with
  | none => simp only [MvccStore.rollbackKey, hl]
  | some l =>
    by_cases hse : l.start_ts = s
    · simp only [MvccStore.rollbackKey, hl, if_pos hse]
      rw [lockOf_setKey_ne st k k2 _ hne]
    · simp only [MvccStore.rollbackKey, hl, if_neg hse]

theorem rollbackKey_none (st : MvccStore) (k : Key) (s : Nat) (h : lockOf st k = none) :
    st.rollbackKey k s = st := by
  unfold lockOf at h
  simp only [MvccStore.rollbackKey, h]

theorem rollbackKey_releases (st : MvccStore) (k : Key) (s : Nat) (l : PendingLock)
    (h : lockOf st k = some l) (hls : l.start_ts = s) :
    lockOf (st.rollbackKey k s) k = none := by
  unfold lockOf at h
  simp only [MvccStore.rollbackKey, h, if_pos hls]
  rw [lockOf_setKey_self]

theorem rollbackAll_lock : ∀ (ks : List Key) (st : MvccStore) (s : Nat) (k : Key),
    lockOf (rollbackAll st ks s) k = none ∨ lockOf (rollbackAll st ks s) k = lockOf st k := by
  intro ks
  induction ks with
  | nil => intro st s k; exact Or.inr rfl
  | cons k0 ks ih =>
    intro st s k
    have hstep : rollbackAll st (k0 :: ks) s = rollbackAll (st.rollbackKey k0 s) ks s := rfl
    rw [hstep]
    rcases ih (st.rollbackKey k0 s) s k with hn | he
    · exact Or.inl hn
    · rw [he]
      by_cases hk : k = k0
      · subst hk
        rcases rollbackKey_lock_self st k s with hn2 | he2
        · exact Or.inl hn2
        · exact Or.inr he2
      · exact Or.inr (rollbackKey_lock_other st k0 s k hk)

theorem rollbackAll_preserves_none : ∀ (ks : List Key) (st : MvccStore) (s : Nat) (k : Key),
    lockOf st k = none → lockOf (rollbackAll st ks s) k = none := by
  intro ks
  induction ks with
  | nil => intro st s k h; exact h
  | cons k0 ks ih =>
    intro st s k h
    have hstep : rollbackAll st (k0 :: ks) s = rollbackAll (st.rollbackKey k0 s) ks s := rfl
    rw [hstep]
    apply ih
    by_cases hk : k = k0
    · subst hk
      rw [rollbackKey_none st k s h]
      exact h
    · rw [rollbackKey_lock_other st k0 s k hk]
      exact h

theorem rollbackAll_releases : ∀ (ks : List Key) (st : MvccStore) (s : Nat) (k : Key)
    (l : PendingLock), k ∈ ks → lockOf st k = some l → l.start_ts = s →
    lockOf (rollbackAll st ks s) k = none := by
  intro ks
  induction ks with
  | nil => intro st s k l hmem; cases hmem
  | cons k0 ks ih =>
    intro st s k l hmem hl hls
    have hstep : rollbackAll st (k0 :: ks) s = rollbackAll (st.rollbackKey k0 s) ks s := rfl
    rw [hstep]
    by_cases hk : k = k0
    · subst hk
      exact rollbackAll_preserves_none ks _ s k (rollbackKey_releases st k s l hl hls)
    · rcases List.mem_cons.mp hmem with heq | hmem2
      · exact absurd heq hk
      · exact ih (st.rollbackKey k0 s) s k l hmem2
          (by rw [rollbackKey_lock_other st k0 s k hk]; exact hl) hls

theorem prewriteRun_fail (s : Nat) : ∀ (ws : List Write) (st : MvccStore) (locked : List Key)
    (st2 : MvccStore) (e : MvccError),
    (∀ k ∈ locked, ∃ l, lockOf st k = some l ∧ l.start_ts = s) →
    prewriteRun s st locked ws = (st2, some e) →
    (∀ k ∈ locked, lockOf st2 k = none) ∧
    (∀ k, lockOf st2 k = none ∨ lockOf st2 k = lockOf st k) := by
  intro ws
  induction ws with
  | nil =>
    intro st locked st2 e _ h
    simp [prewriteRun] at h
  | cons w ws ih =>
    intro st locked st2 e hinv h
    unfold prewriteRun at h
    cases hp : st.prewriteKey w.key w.op s with
    | ok st1 =>
      rw [hp] at h
      have hinv1 : ∀ k ∈ w.key :: locked, ∃ l, lockOf st1 k = some l ∧ l.start_ts = s := by
        intro k hk
        by_cases he : k = w.key
        · subst he
          exact ⟨⟨s, w.op⟩, prewriteKey_ok_self st w.key w.op s st1 hp, rfl⟩
        · rcases List.mem_cons.mp hk with heq | hk2
          · exact absurd heq he
          · obtain ⟨l, hl, hls⟩ := hinv k hk2
            exact ⟨l, by rw [prewriteKey_ok_other st w.key w.op s st1 hp k he]; exact hl, hls⟩
      obtain ⟨g1, g2⟩ := ih st1 (w.key :: locked) st2 e hinv1 h
      refine ⟨fun k hk => g1 k (List.mem_cons_of_mem _ hk), fun k => ?_⟩
      rcases g2 k with hn | he
      · exact Or.inl hn
      · by_cases hkw : k = w.key
        · rw [hkw]
          exact Or.inl (g1 w.key (List.mem_cons_self _ _))
        · rw [he, prewriteKey_ok_other st w.key w.op s st1 hp k hkw]
          exact Or.inr rfl
    | error e2 =>
      rw [hp] at h
      have hst2 : st2 = rollbackAll st locked s := by
        have := congrArg Prod.fst h
        exact this.symm
      subst hst2
      refine ⟨fun k hk => ?_, fun k => rollbackAll_lock locked st s k⟩
      obtain ⟨l, hl, hls⟩ := hinv k hk
      exact rollbackAll_releases locked st s k l hk hl hls

theorem prewriteRun_first (s : Nat) : ∀ (ws : List Write) (st : MvccStore) (locked : List Key)
    (st2 : MvccStore) (e : MvccError),
    prewriteRun s st locked ws = (st2, some e) →
    ∃ pre wf rest, ws = pre ++ wf :: rest ∧
      ∃ stM, prewriteSeq s st pre = some stM ∧ stM.prewriteKey wf.key wf.op s = .error e := by
  intro ws
  induction ws with
  | nil =>
    intro st locked st2 e h
    simp [prewriteRun] at h
  | cons w ws ih =>
    intro st locked st2 e h
    unfold prewriteRun at h
    cases hp : st.prewriteKey w.key w.op s with
    | ok st1 =>
      rw [hp] at h
      obtain ⟨pre, wf, rest, heq, stM, hseq, herr⟩ := ih st1 (w.key :: locked) st2 e h
      refine ⟨w :: pre, wf, rest, by rw [heq]; rfl, stM, ?_, herr⟩
      simp [prewriteSeq, hp]
      exact hseq
    | error e2 =>
      rw [hp] at h
      have he : e2 = e := by
        have := congrArg Prod.snd h
        simpa using this
      subst he
      exact ⟨[], w, ws, rfl, st, rfl, hp⟩

theorem prewriteRun_ok_preserve (s : Nat) : ∀ (ws : List Write) (st : MvccStore)
    (locked : List Key) (st2 : MvccStore),
    prewriteRun s st locked ws = (st2, none) →
    ∀ (k : Key) (l : PendingLock), lockOf st k = some l → l.start_ts = s →
    ∃ l2, lockOf st2 k = some l2 ∧ l2.start_ts = s := by
  intro ws
  induction ws with
  | nil =>
    intro st locked st2 h k l hl hls
    have hst : st = st2 := by
      have := congrArg Prod.fst h
      simpa [prewriteRun] using this
    rw [← hst]
    exact ⟨l, hl, hls⟩
  | cons w ws ih =>
    intro st locked st2 h k l hl hls
    unfold prewriteRun at h
    cases hp : st.prewriteKey w.key w.op s with
    | ok st1 =>
      rw [hp] at h
      by_cases hkw : k = w.key
      · rw [hkw]
        exact ih st1 (w.key :: locked) st2 h w.key ⟨s, w.op⟩
          (prewriteKey_ok_self st w.key w.op s st1 hp) rfl
      · exact ih st1 (w.key :: locked) st2 h k l
          (by rw [prewriteKey_ok_other st w.key w.op s st1 hp k hkw]; exact hl) hls
    | error e2 =>
      rw [hp] at h
      have := congrArg Prod.snd h
      simp at this

theorem prewriteRun_ok_all (s : Nat) : ∀ (ws : List Write) (st : MvccStore)
    (locked : List Key) (st2 : MvccStore),
    prewriteRun s st locked ws = (st2, none) →
    ∀ w ∈ ws, ∃ l, lockOf st2 w.key = some l ∧ l.start_ts = s := by
  intro ws
  induction ws with
  | nil => intro st locked st2 _ w hw; cases hw
  | cons w0 ws ih =>
    intro st locked st2 h w hw
    unfold prewriteRun at h
    cases hp : st.prewriteKey w0.key w0.op s with
    | ok st1 =>
      rw [hp] at h
      rcases List.mem_cons.mp hw with heq | hw2
      · rw [heq]
        obtain ⟨l2, hl2, hls2⟩ := prewriteRun_ok_preserve s ws st1 (w0.key :: locked) st2 h
          w0.key ⟨s, w0.op⟩ (prewriteKey_ok_self st w0.key w0.op s st1 hp) rfl
        exact ⟨l2, hl2, hls2⟩
      · exact ih st1 (w0.key :: locked) st2 h w hw2
    | error e2 =>
      rw [hp] at h
      have := congrArg Prod.snd h
      simp at this

/-- C6: prewrite of a multi-key write set is atomic — `prewrite_key` runs in
iteration order and on failure the coordinator returns the first encountered
error (the error of `prewrite_key` on the first failing write, with every
earlier write having locked cleanly) after rolling back every key locked in
the attempt, so no key of the write set is left holding a new Pending Lock
(each key's lock is gone or exactly as before the call); on success every key
of the write set holds a Pending Lock at `start_ts`. -/
theorem prewrite_atomicity :
    ∀ (st : MvccStore) (ws : List Write) (s : Nat) (st2 : MvccStore) (e : MvccError),
    (coordPrewrite st ws s = (st2, some e) →
      (∀ w ∈ ws, lockOf st2 w.key = none ∨ lockOf st2 w.key = lockOf st w.key) ∧
      ∃ pre wf rest, ws = pre ++ wf :: rest ∧
        ∃ stM, prewriteSeq s st pre = some stM ∧
          stM.prewriteKey wf.key wf.op s = .error e) ∧
    (coordPrewrite st ws s = (st2, none) →
      ∀ w ∈ ws, ∃ l, lockOf st2 w.key = some l ∧ l.start_ts = s) := by
  intro st ws s st2 e
  constructor
  · intro h
    unfold coordPrewrite at h
    have hinv : ∀ k ∈ ([] : List Key), ∃ l, lockOf st k = some l ∧ l.start_ts = s := by
      intro k hk; cases hk
    obtain ⟨_, g2⟩ := prewriteRun_fail s ws st [] st2 e hinv h
    exact ⟨fun w _ => g2 w.key, prewriteRun_first s ws st [] st2 e h⟩
  · intro h
    unfold coordPrewrite at h
    exact prewriteRun_ok_all s ws st [] st2 h

/-- Witness for C6: prewriting `[Put("x","104"), Put("y","104")]` at 104
against a store where `"y"` is already locked at 101 fails (first error:
`KeyIsLocked` on `"y"`), and the attempt's lock on `"x"` has been rolled
back. -/
theorem prewrite_atomicity_witness :
    coordPrewrite (coordPrewrite MvccStore.empty [Write.put ([121], [49, 48, 49])] 101).1
        [Write.put ([120], [49, 48, 52]), Write.put ([121], [49, 48, 52])] 104 =
      ((coordPrewrite (coordPrewrite MvccStore.empty [Write.put ([121], [49, 48, 49])] 101).1
        [Write.put ([120], [49, 48, 52]), Write.put ([121], [49, 48, 52])] 104).1,
       some MvccError.keyIsLocked) ∧
    (lockOf (coordPrewrite (coordPrewrite MvccStore.empty [Write.put ([121], [49, 48, 49])] 101).1
        [Write.put ([120], [49, 48, 52]), Write.put ([121], [49, 48, 52])] 104).1 [120] = none ∨
     lockOf (coordPrewrite (coordPrewrite MvccStore.empty [Write.put ([121], [49, 48, 49])] 101).1
        [Write.put ([120], [49, 48, 52]), Write.put ([121], [49, 48, 52])] 104).1 [120] =
       lockOf (coordPrewrite MvccStore.empty [Write.put ([121], [49, 48, 49])] 101).1 [120]) :=
  ⟨by decide,
   ((prewrite_atomicity (coordPrewrite MvccStore.empty [Write.put ([121], [49, 48, 49])] 101).1
      [Write.put ([120], [49, 48, 52]), Write.put ([121], [49, 48, 52])] 104
      (coordPrewrite (coordPrewrite MvccStore.empty [Write.put ([121], [49, 48, 49])] 101).1
        [Write.put ([120], [49, 48, 52]), Write.put ([121], [49, 48, 52])] 104).1
      MvccError.keyIsLocked).1 (by decide)).1
     (Write.put ([120], [49, 48, 52])) (by decide)⟩

theorem commitKey_ok_shape (st : MvccStore) (k : Key) (s c : Nat) (st2 : MvccStore)
    (h : st.commitKey k s c = .ok st2) :
    ∃ l, (st.keyState k).lock = some l ∧ l.start_ts = s ∧
      st2 = st.setKey k ⟨⟨c, s, l.op⟩ :: (st.keyState k).writes, none⟩ := by
  unfold MvccStore.commitKey at h
  cases hl : (st.keyState k).lock with
  | none => simp only [hl] at h; cases h
  | some l =>
    simp only [hl] at h
    by_cases hse : l.start_ts = s
    · rw [if_pos hse] at h
      injection h with h2
      exact ⟨l, rfl, hse, h2.symm⟩
    · rw [if_neg hse] at h
      cases h

theorem commitKeys_none_entries (s c : Nat) : ∀ (ks : List Key) (st st1 : MvccStore),
    commitKeys s c st ks = (st1, none) →
    ∀ p ∈ st1.data, (p.1 ∈ ks → p.2.lock = none) ∧ (p.1 ∉ ks → p ∈ st.data) := by
  intro ks
  induction ks with
  | nil =>
    intro st st1 h p hp
    have hst : st = st1 := by
      have := congrArg Prod.fst h
      simpa [commitKeys] using this
    refine ⟨fun hmem => absurd hmem (List.not_mem_nil _), fun _ => ?_⟩
    rw [hst]
    exact hp
  | cons k ks ih =>
    intro st st1 h p hp
    unfold commitKeys at h
    cases hc : st.commitKey k s c with
    | ok st' =>
      rw [hc] at h
      obtain ⟨l, _, _, hst'⟩ := commitKey_ok_shape st k s c st' hc
      have ihp := ih st' st1 h p hp
      constructor
      · intro hmem
        by_cases hin : p.1 ∈ ks
        · exact ihp.1 hin
        · have hpin : p ∈ st'.data := ihp.2 hin
          rcases List.mem_cons.mp hmem with heq | hmem2
          · rw [hst'] at hpin
            rcases List.mem_cons.mp hpin with heq2 | hpf
            · rw [heq2]
            · have := (List.mem_filter.mp hpf).2
              simp at this
              exact absurd heq this
          · exact absurd hmem2 hin
      · intro hnmem
        have h1 : p.1 ≠ k := fun hh => hnmem (by rw [hh]; exact List.mem_cons_self _ _)
        have h2 : p.1 ∉ ks := fun hh => hnmem (List.mem_cons_of_mem _ hh)
        have hpin : p ∈ st'.data := ihp.2 h2
        rw [hst'] at hpin
        rcases List.mem_cons.mp hpin with heq2 | hpf
        · exact absurd (congrArg Prod.fst heq2) h1
        · exact (List.mem_filter.mp hpf).1
    | error e =>
      rw [hc] at h
      have := congrArg Prod.snd h
      simp at this

/-- C7: commit is idempotent on committed state — once
`commit(start_ts, commit_ts)` has succeeded, running it again no-ops
(it succeeds and returns the store unchanged, so every `get` at every
timestamp is unchanged by the second call). -/
theorem commit_idempotent :
    ∀ (st : MvccStore) (s c : Nat) (st1 : MvccStore),
    coordCommit st s c = (st1, none) → coordCommit st1 s c = (st1, none) := by
  intro st s c st1 h
  unfold coordCommit at h
  have hents := commitKeys_none_entries s c (lockedKeys st s) st st1 h
  have hempty : lockedKeys st1 s = [] := by
    have hall : ∀ p ∈ st1.data, ¬(entryLockedAt p s = true) := by
      intro p hp hlocked
      obtain ⟨h1, h2⟩ := hents p hp
      by_cases hin : p.1 ∈ lockedKeys st s
      · have hnone := h1 hin
        unfold entryLockedAt at hlocked
        rw [hnone] at hlocked
        cases hlocked
      · exact hin (List.mem_map_of_mem _ (List.mem_filter.mpr ⟨h2 hin, hlocked⟩))
    have hfil : st1.data.filter (fun p => entryLockedAt p s) = [] :=
      List.filter_eq_nil_iff.mpr hall
    simp [lockedKeys, hfil]
  unfold coordCommit
  rw [hempty]
  rfl

/-- Witness for C7: after prewriting `"x"` at 100, `commit(100, 101)`
succeeds, and committing again no-ops on the already-committed state. -/
theorem commit_idempotent_witness :
    coordCommit (coordPrewrite MvccStore.empty [Write.put ([120], [49, 48, 48])] 100).1 100 101 =
      ((coordCommit (coordPrewrite MvccStore.empty
          [Write.put ([120], [49, 48, 48])] 100).1 100 101).1, none) ∧
    coordCommit (coordCommit (coordPrewrite MvccStore.empty
        [Write.put ([120], [49, 48, 48])] 100).1 100 101).1 100 101 =
      ((coordCommit (coordPrewrite MvccStore.empty
          [Write.put ([120], [49, 48, 48])] 100).1 100 101).1, none) :=
  ⟨by decide,
   commit_idempotent (coordPrewrite MvccStore.empty [Write.put ([120], [49, 48, 48])] 100).1
     100 101
     (coordCommit (coordPrewrite MvccStore.empty
       [Write.put ([120], [49, 48, 48])] 100).1 100 101).1
     (by decide)⟩

end TikvStorage
